import Mathlib

/-!
Verification of the repository-synchronization and context-cache coherence
engine of the promptly server.

Strings are modelled as lists of characters (`Str`).  Each definition below is
a shallow embedding of the corresponding TypeScript function; the file and
line references are given in the doc comments.  The SHA-256 digest used by
`generateProjectId` is modelled as an explicit `hash` parameter, since every
claim about identifiers only depends on the digest being a function of its
input (plus, where inequality is needed, injectivity, stated as a hypothesis).
-/

namespace Promptly

abbrev Str := List Char

/-- Lower-case every character, modelling JavaScript toLowerCase on the ASCII
strings handled here. -/
def strLower (s : Str) : Str := s.map Char.toLower

/-- Does the string end in ".git"?  Models the test of the anchored regex
replace in normalizeGitUrl (projectManager). -/
def endsWithDotGit (s : Str) : Bool := ".git".data.isSuffixOf s

/-- Model of the replace of an anchored trailing ".git"
(projectManager, normalizeGitUrl step 1). -/
def stripDotGit (s : Str) : Str :=
  if endsWithDotGit s then s.take (s.length - 4) else s

/-- Model of rewriting an SSH remote (the regex turning git@host:path into
https://host/path in normalizeGitUrl).  The host part must be a non-empty
run of non-colon characters followed by a colon, exactly as the regex
requires. -/
def sshRewrite (s : Str) : Str :=
  if s.take 4 = "git@".data then
    let rest := s.drop 4
    match rest.takeWhile (fun c => c != ':'), rest.dropWhile (fun c => c != ':') with
    | _ :: _, _ :: tail => "https://".data ++ rest.takeWhile (fun c => c != ':') ++ '/' :: tail
    | _, _ => s
  else s

/-- Model of stripping a leading http:// or https:// scheme
(normalizeGitUrl step 3). -/
def stripHttpScheme (s : Str) : Str :=
  if s.take 8 = "https://".data then s.drop 8
  else if s.take 7 = "http://".data then s.drop 7
  else s

/-- Split a list at the last occurrence of a character: some (before, after)
with l = before ++ c :: after, where after is c-free. -/
def splitLastAt (c : Char) (l : Str) : Option (Str × Str) :=
  match l.reverse.dropWhile (fun x => x != c) with
  | _ :: revBefore => some (revBefore.reverse, (l.reverse.takeWhile (fun x => x != c)).reverse)
  | [] => none

/-- The parts of a parsed absolute URL: scheme, user, optional password, host
and path (the path keeps its leading slash; an empty path serializes as a
single slash, as the WHATWG serializer does). -/
structure UrlParts where
  scheme : Str
  user : Str
  pass : Option Str
  host : Str
  path : Str
  deriving Repr, DecidableEq

/-- Model of constructing a WHATWG URL from a string, restricted to the
behaviour the server relies on: scheme and host are lower-cased, credentials
are split off the authority at its last at-sign and split into user and
password at the first colon, and parsing fails (the constructor throws) when
the scheme or host is empty or the scheme separator is missing. -/
def parseUrl? (s : Str) : Option UrlParts :=
  let scheme := s.takeWhile (fun c => c != ':' && c != '/')
  match scheme, s.dropWhile (fun c => c != ':' && c != '/') with
  | _ :: _, ':' :: '/' :: '/' :: rest2 =>
    let auth := rest2.takeWhile (fun c => c != '/')
    let pathPart := rest2.dropWhile (fun c => c != '/')
    match splitLastAt '@' auth with
    | some (ui, h) =>
      if h = [] then none
      else
        let user := ui.takeWhile (fun c => c != ':')
        let pass := match ui.dropWhile (fun c => c != ':') with
          | _ :: t => some t
          | [] => none
        some ⟨strLower scheme, user, pass, strLower h, pathPart⟩
    | none =>
      if auth = [] then none
      else some ⟨strLower scheme, [], none, strLower auth, pathPart⟩
  | _, _ => none

/-- Model of the WHATWG URL serializer for the parts of `UrlParts`:
credentials are included (user, then a colon and the password when present,
then an at-sign) exactly when one of them is set, and an empty path prints as
a single slash. -/
def buildUrl (u : UrlParts) : Str :=
  u.scheme ++ "://".data
    ++ (if u.user = [] ∧ u.pass = none then []
        else u.user ++ (match u.pass with | some p => ':' :: p | none => []) ++ ['@'])
    ++ u.host ++ (if u.path = [] then ['/'] else u.path)

/-- Embedding of cleanGitUrl (projectManager): SSH-style URLs are returned
unchanged, otherwise the URL is parsed, its username and password are cleared
and it is re-serialized; an unparseable string is returned as-is. -/
def cleanGitUrl (s : Str) : Str :=
  if s.take 4 = "git@".data then s
  else
    match parseUrl? s with
    | some u => buildUrl { u with user := [], pass := none }
    | none => s

/-- Embedding of redactGitUrl (server.ts): a non-empty username is replaced by
three asterisks and the password is cleared; an unparseable string is returned
as-is. -/
def redactGitUrl (s : Str) : Str :=
  match parseUrl? s with
  | some u => buildUrl { u with user := if u.user = [] then [] else "***".data, pass := none }
  | none => s

/-- Embedding of normalizeGitUrl (projectManager): clean embedded credentials,
strip a trailing ".git", rewrite an SSH remote to https form, strip the
scheme, and lower-case the result. -/
def normalizeGitUrl (s : Str) : Str :=
  strLower (stripHttpScheme (sshRewrite (stripDotGit (cleanGitUrl s))))

/-- The string fed to the SHA-256 digest in generateProjectId
(projectManager): normalized URL, a hash mark, then the branch. -/
def projectIdComposite (gitUrl branch : Str) : Str :=
  normalizeGitUrl gitUrl ++ '#' :: branch

/-- Embedding of generateProjectId (projectManager).  The crypto SHA-256 hex
digest is the `hash` parameter; the code keeps its first 12 characters. -/
def generateProjectId (hash : Str → Str) (gitUrl branch : Str) : Str :=
  (hash (projectIdComposite gitUrl branch)).take 12

/-- The identifier computed at the server.ts call sites that pass an access
token as a third argument, e.g. generateProjectId(cleanUrl, branch, token):
JavaScript ignores arguments beyond the declared parameters, so the token
does not reach the digest. -/
def generateProjectIdWithTokenArg (hash : Str → Str) (gitUrl branch : Str)
    (_accessToken : Option Str) : Str :=
  generateProjectId hash gitUrl branch

/-- Drop the trailing run of characters satisfying p. -/
def dropTrailWhile (p : Char → Bool) (s : Str) : Str :=
  (s.reverse.dropWhile p).reverse

/-- Embedding of processUserMessage (server.ts): the regex replace of
leading and trailing underscore runs with the empty string. -/
def processUserMessage (s : Str) : Str :=
  dropTrailWhile (fun c => c == '_') (s.dropWhile (fun c => c == '_'))

/-- The length of the leading underscore run of a message. -/
def leadUnderscores (s : Str) : Nat := (s.takeWhile (fun c => c == '_')).length

/-- The length of the trailing underscore run that remains after the leading
run has been dropped. -/
def tailUnderscores (s : Str) : Nat :=
  (((s.dropWhile (fun c => c == '_')).reverse).takeWhile (fun c => c == '_')).length

/-- The three places a chat handler uses the message text: the provider send,
the session transcript entry, and the history-log request field. -/
structure ChatTurnRecord where
  sentToProvider : Str
  transcriptUserEntry : Str
  historyRequest : Str
  deriving Repr, DecidableEq

/-- Embedding of the common data flow of every chat handler in server.ts
(the api chat-message and ask-message handlers and the enhance and ask JSON
routes): the submitted message is processed once and that processed text is
what is sent, pushed onto the transcript, and written to the history log. -/
def chatTurnRecord (message : Str) : ChatTurnRecord :=
  let processed := processUserMessage message
  { sentToProvider := processed
    transcriptUserEntry := processed
    historyRequest := processed }

/-- Does the haystack contain the needle?  Models the JavaScript string
includes test. -/
def strContains (haystack needle : Str) : Bool := decide (needle <:+: haystack)

/-- The shape of a provider failure as inspected by isCacheExpiredError:
optional numeric status and statusCode fields, an optional message property
(the empty string models an absent message), and the String(error)
rendering. -/
structure ProvError where
  status : Option Nat
  statusCode : Option Nat
  message : Str
  str : Str
  deriving Repr, DecidableEq

/-- Embedding of isCacheExpiredError (server.ts lines 418-441): a
forbidden-class status (a 403 field or a 403 Forbidden fragment in the string
form) together with a cache-shaped message (CachedContent not found or
permission denied in the string form or the message property). -/
def isCacheExpiredError (e : ProvError) : Bool :=
  let statusMatch := e.status == some 403 || e.statusCode == some 403
    || strContains e.str "[403 Forbidden]".data || strContains e.str "403 Forbidden".data
  let messageMatch := strContains e.str "CachedContent not found".data
    || strContains e.str "permission denied".data
    || strContains e.message "CachedContent not found".data
    || strContains e.message "permission denied".data
  statusMatch && messageMatch

/-! ### Server runtime state: projects, sessions, caches (server.ts) -/

/-- A runtime project entry of the projects map in server.ts.  The provider
cache handle (cachedContent) is modelled by the serial number of the
provider-side create call that produced it. -/
structure ProjServer where
  id : Str
  cachedContent : Option Nat
  cacheStale : Bool
  deriving Repr, DecidableEq

/-- A chat session value of the chatSessions map: the project it belongs to,
its mode, and the cache handle its chat object was created from. -/
structure SessionRec where
  projectId : Str
  mode : Str
  boundCache : Nat
  deriving Repr, DecidableEq

/-- The shared mutable state of server.ts that the claims are about: the
projects map, the chatSessions map (keyed by the composite key string), and
counters of provider cache-create calls and provider sends. -/
structure ServerState where
  projects : List ProjServer
  sessions : List (Str × SessionRec)
  cacheCreates : Nat
  sends : Nat
  deriving Repr, DecidableEq

/-- The composite session key of server.ts: sessionId, projectId and mode
joined by colons. -/
def compositeKey (sessionId pid mode : Str) : Str :=
  sessionId ++ ':' :: pid ++ ':' :: mode

/-- The key test used when clearing sessions for a project
(handleCacheExpiration, clearSessionsForProject): the key contains the
project id between two colons. -/
def sessionKeyHasProject (pid : Str) (key : Str) : Bool :=
  strContains key (':' :: pid ++ [':'])

/-- Model of createCachedContent (server.ts): one provider cache-create call,
returning a fresh handle. -/
def createCachedContent (st : ServerState) : ServerState × Nat :=
  let g := st.cacheCreates + 1
  ({ st with cacheCreates := g }, g)

/-- Look a project up in the projects map. -/
def findProject (st : ServerState) (pid : Str) : Option ProjServer :=
  st.projects.find? (fun p => p.id == pid)

/-- Apply a field update to the project with the given id. -/
def updateProject (st : ServerState) (pid : Str) (f : ProjServer → ProjServer) : ServerState :=
  { st with projects := st.projects.map (fun p => if p.id == pid then f p else p) }

/-- Embedding of refreshCacheIfStale (server.ts lines 393-406): when the
project's stale flag is set, create new cached content, record the handle and
clear the flag, returning true; otherwise do nothing and return false.  The
session registry is not touched. -/
def refreshCacheIfStale (st : ServerState) (pid : Str) : ServerState × Bool :=
  match findProject st pid with
  | none => (st, false)
  | some p =>
    if p.cacheStale then
      let (st1, g) := createCachedContent st
      (updateProject st1 pid (fun q => { q with cachedContent := some g, cacheStale := false }), true)
    else (st, false)

/-- Embedding of handleCacheExpiration (server.ts lines 446-469): none models
the throw when the project is unknown; otherwise create new cached content,
record it, clear the stale flag, and delete every chat session whose key
contains the project id between colons. -/
def handleCacheExpiration (st : ServerState) (pid : Str) : Option ServerState :=
  match findProject st pid with
  | none => none
  | some _ =>
    let (st1, g) := createCachedContent st
    let st2 := updateProject st1 pid (fun q => { q with cachedContent := some g, cacheStale := false })
    some { st2 with sessions := st2.sessions.filter (fun kv => !(sessionKeyHasProject pid kv.1)) }

/-- Failures a chat turn can surface: a provider error re-thrown to the
caller, or the throws of getChatSession and handleCacheExpiration. -/
inductive SendFailure where
  | provider (e : ProvError)
  | projectNotFound
  | noCachedContent
  deriving Repr, DecidableEq

/-- Embedding of getChatSession (server.ts lines 503-550): look the project
up, refresh its cache if stale, and return the existing session for the
composite key or create a new one bound to the current cache handle. -/
def getChatSession (st : ServerState) (sessionId pid mode : Str) :
    Except SendFailure (ServerState × SessionRec) :=
  let key := compositeKey sessionId pid mode
  match findProject st pid with
  | none => .error .projectNotFound
  | some _ =>
    let st1 := (refreshCacheIfStale st pid).1
    match st1.sessions.find? (fun kv => kv.1 == key) with
    | some kv => .ok (st1, kv.2)
    | none =>
      match findProject st1 pid with
      | none => .error .projectNotFound
      | some p1 =>
        match p1.cachedContent with
        | none => .error .noCachedContent
        | some g =>
          let sd : SessionRec := { projectId := pid, mode := mode, boundCache := g }
          .ok ({ st1 with sessions := st1.sessions ++ [(key, sd)] }, sd)

/-- One provider send: bump the send counter and surface the outcome the
provider produces for this call. -/
def sendOnce (st : ServerState) (outcome : Except ProvError Str) :
    ServerState × Except ProvError Str :=
  ({ st with sends := st.sends + 1 }, outcome)

/-- Embedding of sendMessageWithRetry (server.ts lines 474-498): send; on an
error classified by isCacheExpiredError, run handleCacheExpiration, get a
fresh session for the same key, and send exactly once more, surfacing that
second outcome as-is; any other error is re-thrown. The outcomes the provider
would return for the first and second send are passed in as o1 and o2. -/
def sendMessageWithRetry (st : ServerState) (sessionId pid mode : Str)
    (o1 o2 : Except ProvError Str) : ServerState × Except SendFailure Str :=
  let (st1, r1) := sendOnce st o1
  match r1 with
  | .ok t => (st1, .ok t)
  | .error e =>
    if isCacheExpiredError e then
      match handleCacheExpiration st1 pid with
      | none => (st1, .error .projectNotFound)
      | some st2 =>
        match getChatSession st2 sessionId pid mode with
        | .error f => (st2, .error f)
        | .ok (st3, _) =>
          let (st4, r2) := sendOnce st3 o2
          match r2 with
          | .ok t => (st4, .ok t)
          | .error e2 => (st4, .error (.provider e2))
    else (st1, .error (.provider e))

/-- Embedding of the cacheStale marking done by the repository watcher after
a successful pull (repoWatcher.ts line 116). -/
def markStale (st : ServerState) (pid : Str) : ServerState :=
  updateProject st pid (fun p => { p with cacheStale := true })

/-- Mark a project stale n times in a row (n watcher cycles each observing an
upstream change before any request reads the flag). -/
def markStaleTimes (st : ServerState) (pid : Str) : Nat → ServerState
  | 0 => st
  | n + 1 => markStale (markStaleTimes st pid n) pid

/-! ### The repository watcher loop (repoWatcher.ts, startWatching) -/

/-- The observable state of the watcher loop of startWatching: the isRunning
single-flight flag, how many timer firings were skipped, how many tick bodies
were entered and finished, and how many git operations the finished bodies
performed. -/
structure WatchState where
  isRunning : Bool
  skipped : Nat
  ticksStarted : Nat
  ticksFinished : Nat
  gitOps : Nat
  deriving Repr, DecidableEq

/-- Events of the watcher loop: the interval timer fires, or the in-progress
tick body reaches its finally block having performed the given number of git
operations across the projects it visited. -/
inductive WatchEvent where
  | timerFire
  | bodyFinish (ops : Nat)
  deriving Repr, DecidableEq

/-- Embedding of the interval callback of startWatching (repoWatcher.ts
lines 96-129): a firing while isRunning is set logs a skip and returns before
any repository work; otherwise the tick body is entered (isRunning set).  The
finally block clears isRunning when the body completes. -/
def watchStep (s : WatchState) : WatchEvent → WatchState
  | .timerFire =>
    if s.isRunning then { s with skipped := s.skipped + 1 }
    else { s with isRunning := true, ticksStarted := s.ticksStarted + 1 }
  | .bodyFinish ops =>
    if s.isRunning then
      { s with isRunning := false, ticksFinished := s.ticksFinished + 1,
               gitOps := s.gitOps + ops }
    else s

/-- The state of the watcher before the first timer firing. -/
def watchInit : WatchState :=
  { isRunning := false, skipped := 0, ticksStarted := 0, ticksFinished := 0, gitOps := 0 }

/-- Replay a sequence of watcher events from a starting state. -/
def watchRun (s : WatchState) (evs : List WatchEvent) : WatchState :=
  evs.foldl watchStep s

/-- The number of tick bodies currently executing, as recorded by the
start/finish counters. -/
def ticksInFlight (s : WatchState) : Nat := s.ticksStarted - s.ticksFinished

/-! ### The project registry (projectManager.ts: addProject and friends) -/

/-- A persisted configuration entry of projects.json: clean git URL, optional
branch (main when absent) and optional access token. -/
structure ProjectConfig where
  gitUrl : Str
  branch : Option Str
  accessToken : Option Str
  deriving Repr, DecidableEq

/-- Project lifecycle status. -/
inductive ProjStatus where
  | cloning
  | ready
  | error
  deriving Repr, DecidableEq

/-- The Project record addProject returns. -/
structure ProjectRec where
  id : Str
  gitUrl : Str
  branch : Str
  path : Str
  accessToken : Option Str
  status : ProjStatus
  errorMessage : Option Str
  deriving Repr, DecidableEq

/-- The externally visible effects of addProject, in the order they are
performed. -/
inductive AddEvent where
  | savedConfig
  | cloneAttempted
  deriving Repr, DecidableEq

/-- The duplicate test of addProject: some stored entry derives the same
identifier as the incoming clean URL and branch. -/
def configHasProjectId (hash : Str → Str) (cfg : List ProjectConfig) (projectId : Str) : Bool :=
  cfg.any (fun p =>
    generateProjectId hash (cleanGitUrl p.gitUrl) (p.branch.getD "main".data) == projectId)

/-- Embedding of addProject (projectManager.ts, token-aware version): clean
the URL, derive the identifier, reject a duplicate, persist the new entry
(save happens before the clone is attempted, witnessed by the event order),
then attempt the clone, degrading the returned Project to error status
instead of throwing when the clone fails.  The outcome of the external git
clone is the cloneOutcome parameter. -/
def addProject (hash : Str → Str) (cfg : List ProjectConfig) (gitUrl checkoutDir branch : Str)
    (accessToken : Option Str) (cloneOutcome : Except Str Unit) :
    Except Str (List ProjectConfig × ProjectRec × List AddEvent) :=
  let cleanUrl := cleanGitUrl gitUrl
  let projectId := generateProjectId hash cleanUrl branch
  let projectPath := checkoutDir ++ '/' :: projectId
  if configHasProjectId hash cfg projectId then
    .error ("Project with git URL ".data ++ cleanUrl ++ " and branch ".data ++ branch
      ++ " already exists".data)
  else
    let entry : ProjectConfig := { gitUrl := cleanUrl, branch := some branch,
                                   accessToken := accessToken }
    let cfg2 := cfg ++ [entry]
    let base : ProjectRec := { id := projectId, gitUrl := cleanUrl, branch := branch,
                               path := projectPath, accessToken := accessToken,
                               status := .cloning, errorMessage := none }
    match cloneOutcome with
    | .ok _ =>
      .ok (cfg2, { base with status := .ready }, [.savedConfig, .cloneAttempted])
    | .error msg =>
      .ok (cfg2, { base with status := .error, errorMessage := some msg },
        [.savedConfig, .cloneAttempted])

/-- The configuration entry the project edit handler persists (server.ts
lines 1018-1024): the cleaned URL, the normalized branch, and the token to
persist when there is one. -/
def editUpdatedEntry (trimmedGitUrl normalizedBranch : Str) (tokenToPersist : Option Str) :
    ProjectConfig :=
  { gitUrl := cleanGitUrl trimmedGitUrl, branch := some normalizedBranch,
    accessToken := tokenToPersist }

/-- The fields of a project exposed by the projects list endpoint (server.ts
GET /projects): in particular the stored git URL is returned verbatim. -/
def listProjectGitUrl (p : ProjectRec) : Str := p.gitUrl

/-! ### The git process supervisor (gitRunner.ts, runGitCommand) -/

/-- Which captured stream a chunk arrived on. -/
inductive StreamTag where
  | stdout
  | stderr
  deriving Repr, DecidableEq

/-- One data event on a captured stream. -/
structure ChunkEv where
  tag : StreamTag
  data : Str
  deriving Repr, DecidableEq

/-- The supervisor's accumulation state while a command runs: byte counters
and buffers per stream, whether the call was already settled by an overflow
rejection (and on which stream), and whether the child was killed. -/
structure RunState where
  outBytes : Nat
  errBytes : Nat
  outBuf : Str
  errBuf : Str
  overflowed : Option StreamTag
  killed : Bool
  deriving Repr, DecidableEq

/-- The initial accumulation state. -/
def runInit : RunState :=
  { outBytes := 0, errBytes := 0, outBuf := [], errBuf := [], overflowed := none,
    killed := false }

/-- Embedding of the per-chunk data handlers of runGitCommand (gitRunner.ts
lines 147-171): the counter is bumped by the chunk length first; if it now
exceeds maxBuffer the child is killed and the call rejects without appending
the chunk, and (the listeners having been removed by the abort cleanup) later
chunks change nothing; otherwise the chunk is appended. -/
def runChunkStep (maxBuffer : Nat) (s : RunState) (c : ChunkEv) : RunState :=
  if s.overflowed.isSome then s
  else
    match c.tag with
    | .stdout =>
      let nb := s.outBytes + c.data.length
      if maxBuffer < nb then
        { s with outBytes := nb, overflowed := some .stdout, killed := true }
      else { s with outBytes := nb, outBuf := s.outBuf ++ c.data }
    | .stderr =>
      let nb := s.errBytes + c.data.length
      if maxBuffer < nb then
        { s with errBytes := nb, overflowed := some .stderr, killed := true }
      else { s with errBytes := nb, errBuf := s.errBuf ++ c.data }

/-- The default output cap of runGitCommand: 10 MB. -/
def defaultMaxBuffer : Nat := 10 * 1024 * 1024

/-- The cap actually used: the caller's maxBufferBytes option or the
default. -/
def effectiveMaxBuffer (maxBufferBytes : Option Nat) : Nat :=
  maxBufferBytes.getD defaultMaxBuffer

/-- How a supervised git call settles. -/
inductive RunOutcome where
  | resolved (stdout stderr : Str)
  | overflowError (tag : StreamTag)
  | commandError (code : Int) (stdout stderr : Str)
  deriving Repr, DecidableEq

/-- Embedding of runGitCommand's captured-output life cycle: fold the stream
chunks through the data handlers; if a stream overflowed, the call has
rejected with the output-overflow error naming that stream (and the child was
killed); otherwise the close handler resolves on exit code 0 and rejects with
a GitCommandError carrying the captured output otherwise. -/
def runGitCommandModel (maxBufferBytes : Option Nat) (chunks : List ChunkEv)
    (exitCode : Int) : RunState × RunOutcome :=
  let maxB := effectiveMaxBuffer maxBufferBytes
  let final := chunks.foldl (runChunkStep maxB) runInit
  match final.overflowed with
  | some tag => (final, .overflowError tag)
  | none =>
    if exitCode = 0 then (final, .resolved final.outBuf final.errBuf)
    else (final, .commandError exitCode final.outBuf final.errBuf)

/-- The first stream to overflow for a chunk sequence, if any: computed by
the same fold. -/
def firstOverflow (maxBuffer : Nat) (chunks : List ChunkEv) : Option StreamTag :=
  (chunks.foldl (runChunkStep maxBuffer) runInit).overflowed

/-- Invariant of the supervisor's accumulation state under a cap: buffers
never exceed the cap, an overflow rejection implies the child was killed, and
while no overflow has happened the buffers match the byte counters. -/
def runInv (maxB : Nat) (s : RunState) : Prop :=
  s.outBuf.length ≤ maxB ∧ s.errBuf.length ≤ maxB
    ∧ (s.overflowed.isSome → s.killed = true)
    ∧ (s.overflowed = none →
        s.outBuf.length = s.outBytes ∧ s.errBuf.length = s.errBytes)

/-- A concrete server state with one project whose cache (handle 1) is stale
and one live chat session bound to that handle. -/
def exStateStale : ServerState :=
  { projects := [{ id := "p1".data, cachedContent := some 1, cacheStale := true }],
    sessions := [(compositeKey "s1".data "p1".data "enhance".data,
                  { projectId := "p1".data, mode := "enhance".data, boundCache := 1 })],
    cacheCreates := 1, sends := 0 }

/-- A concrete provider failure with the expiry signature: a 403 status and a
CachedContent not found message. -/
def exExpiredError : ProvError :=
  { status := some 403, statusCode := none,
    message := "CachedContent not found".data,
    str := "Error: [403 Forbidden] CachedContent not found".data }

/-! ## Helper lemmas on lists and the string model -/

theorem takeWhile_append_middle (p : Char → Bool) (a : Str) (c : Char) (b : Str)
    (ha : ∀ x ∈ a, p x = true) (hc : p c = false) :
    (a ++ c :: b).takeWhile p = a ∧ (a ++ c :: b).dropWhile p = c :: b := by
  induction a with
  | nil => simp [List.takeWhile_cons, List.dropWhile_cons, hc]
  | cons x t ih =>
    have hx : p x = true := ha x (by simp)
    have ht : ∀ y ∈ t, p y = true := fun y hy => ha y (by simp [hy])
    have := ih ht
    simp [List.takeWhile_cons, List.dropWhile_cons, hx, this.1, this.2]

theorem takeWhile_eq_self_of_all (p : Char → Bool) (l : Str) (h : ∀ x ∈ l, p x = true) :
    l.takeWhile p = l := by
  induction l with
  | nil => rfl
  | cons x t ih =>
    have hx := h x (by simp)
    simp [List.takeWhile_cons, hx, ih (fun y hy => h y (by simp [hy]))]

theorem dropWhile_eq_nil_of_all (p : Char → Bool) (l : Str) (h : ∀ x ∈ l, p x = true) :
    l.dropWhile p = [] := by
  induction l with
  | nil => rfl
  | cons x t ih =>
    have hx := h x (by simp)
    simp [List.dropWhile_cons, hx, ih (fun y hy => h y (by simp [hy]))]

theorem head?_dropWhile_false (p : Char → Bool) :
    ∀ (l : Str) {c : Char}, (l.dropWhile p).head? = some c → p c = false := by
  intro l
  induction l with
  | nil => intro c h; simp at h
  | cons x t ih =>
    intro c h
    by_cases hx : p x
    · rw [List.dropWhile_cons_of_pos hx] at h
      exact ih h
    · rw [List.dropWhile_cons_of_neg hx] at h
      simp at h
      subst h
      exact Bool.eq_false_iff.mpr hx

theorem mem_takeWhile_sat (p : Char → Bool) :
    ∀ (l : Str) {x : Char}, x ∈ l.takeWhile p → p x = true := by
  intro l
  induction l with
  | nil => intro x h; simp at h
  | cons a t ih =>
    intro x h
    by_cases hp : p a
    · rw [List.takeWhile_cons_of_pos hp] at h
      rcases List.mem_cons.mp h with rfl | h2
      · exact hp
      · exact ih h2
    · rw [List.takeWhile_cons_of_neg hp] at h
      simp at h

theorem takeWhile_underscore_replicate (l : Str) :
    l.takeWhile (fun c => c == '_')
      = List.replicate (l.takeWhile (fun c => c == '_')).length '_' := by
  apply List.eq_replicate_of_mem
  intro b hb
  have := mem_takeWhile_sat (fun c => c == '_') l hb
  simpa using this

theorem processUserMessage_split (msg : Str) :
    msg.dropWhile (fun c => c == '_')
      = processUserMessage msg
        ++ List.replicate (tailUnderscores msg) '_' := by
  set pu : Char → Bool := fun c => c == '_' with hpu
  set m1 := msg.dropWhile pu with hm1
  have h1 : m1.reverse.takeWhile pu ++ m1.reverse.dropWhile pu = m1.reverse :=
    List.takeWhile_append_dropWhile pu m1.reverse
  have h2 : m1 = (m1.reverse.dropWhile pu).reverse ++ (m1.reverse.takeWhile pu).reverse := by
    conv_lhs => rw [← List.reverse_reverse m1, ← h1]
    rw [List.reverse_append]
  have h3 : (m1.reverse.takeWhile pu).reverse
      = List.replicate (tailUnderscores msg) '_' := by
    have := takeWhile_underscore_replicate m1.reverse
    rw [tailUnderscores, ← hpu, ← hm1]
    rw [this]
    simp
  calc m1 = (m1.reverse.dropWhile pu).reverse ++ (m1.reverse.takeWhile pu).reverse := h2
    _ = processUserMessage msg ++ List.replicate (tailUnderscores msg) '_' := by
        rw [h3]; rfl

theorem processUserMessage_decomposition (msg : Str) :
    msg = List.replicate (leadUnderscores msg) '_'
      ++ processUserMessage msg ++ List.replicate (tailUnderscores msg) '_' := by
  set pu : Char → Bool := fun c => c == '_' with hpu
  have h0 : msg.takeWhile pu ++ msg.dropWhile pu = msg :=
    List.takeWhile_append_dropWhile pu msg
  have hl : msg.takeWhile pu = List.replicate (leadUnderscores msg) '_' := by
    rw [leadUnderscores, ← hpu]
    exact takeWhile_underscore_replicate msg
  conv_lhs => rw [← h0]
  rw [hl, processUserMessage_split msg, List.append_assoc]

theorem processUserMessage_head_not_underscore (msg : Str) {c : Char}
    (h : (processUserMessage msg).head? = some c) : c ≠ '_' := by
  have hsplit := processUserMessage_split msg
  obtain ⟨t, ht⟩ : ∃ t, processUserMessage msg = c :: t := by
    cases hpm : processUserMessage msg with
    | nil => rw [hpm] at h; simp at h
    | cons a t =>
      rw [hpm] at h
      simp at h
      exact ⟨t, by rw [h]⟩
  have hm1 : (msg.dropWhile (fun c => c == '_')).head? = some c := by
    rw [hsplit, ht]
    rfl
  have := head?_dropWhile_false (fun c => c == '_') msg hm1
  simpa using this

theorem processUserMessage_last_not_underscore (msg : Str) {c : Char}
    (h : (processUserMessage msg).getLast? = some c) : c ≠ '_' := by
  set pu : Char → Bool := fun c => c == '_' with hpu
  have hx : (processUserMessage msg).getLast?
      = (((msg.dropWhile pu).reverse).dropWhile pu).head? := by
    rw [processUserMessage, dropTrailWhile]
    exact List.getLast?_reverse _
  rw [hx] at h
  have := head?_dropWhile_false pu ((msg.dropWhile pu).reverse) h
  simpa [hpu] using this

/-- C10: for every chat message accepted by a chat endpoint, the text sent to
the provider, recorded in the session transcript, and written to the history
log is the submitted message with all leading and all trailing underscores
removed, interior underscores and all other characters preserved: the three
recorded texts coincide with processUserMessage of the message, the message
decomposes as an underscore run, the processed core, and an underscore run,
and the core neither starts nor ends with an underscore. -/
theorem chat_message_trims_underscores (message : Str) :
    (chatTurnRecord message).sentToProvider = processUserMessage message
    ∧ (chatTurnRecord message).transcriptUserEntry = processUserMessage message
    ∧ (chatTurnRecord message).historyRequest = processUserMessage message
    ∧ message = List.replicate (leadUnderscores message) '_'
        ++ processUserMessage message ++ List.replicate (tailUnderscores message) '_'
    ∧ (∀ c, (processUserMessage message).head? = some c → c ≠ '_')
    ∧ (∀ c, (processUserMessage message).getLast? = some c → c ≠ '_') := by
  refine ⟨rfl, rfl, rfl, processUserMessage_decomposition message, ?_, ?_⟩
  · intro c hc; exact processUserMessage_head_not_underscore message hc
  · intro c hc; exact processUserMessage_last_not_underscore message hc

/-- Witness for C10 at the concrete message with two leading and two trailing
underscores around an interior underscore. -/
theorem chat_message_trims_underscores_witness :
    "__a_b__".data = List.replicate (leadUnderscores "__a_b__".data) '_'
      ++ processUserMessage "__a_b__".data ++ List.replicate (tailUnderscores "__a_b__".data) '_'
    ∧ processUserMessage "__a_b__".data = "a_b".data
    ∧ ('a' : Char) ≠ '_' := by
  refine ⟨(chat_message_trims_underscores "__a_b__".data).2.2.2.1, by decide, ?_⟩
  exact (chat_message_trims_underscores "__a_b__".data).2.2.2.2.1 'a' (by decide)

/-! ## Lemmas on the server state model -/

theorem find?_id_cons (q : ProjServer) (t : List ProjServer) (pid : Str) :
    List.find? (fun r => r.id == pid) (q :: t)
      = if (q.id == pid) = true then some q
        else List.find? (fun r => r.id == pid) t := by
  by_cases h : (q.id == pid) = true
  · rw [if_pos h]; exact List.find?_cons_of_pos _ h
  · rw [if_neg h]; exact List.find?_cons_of_neg _ h

theorem findProject_update (st : ServerState) (pid : Str) (f : ProjServer → ProjServer)
    (hf : ∀ p, (f p).id = p.id) :
    findProject (updateProject st pid f) pid = (findProject st pid).map f := by
  show (st.projects.map (fun p => if p.id == pid then f p else p)).find?
      (fun p => p.id == pid) = (st.projects.find? (fun p => p.id == pid)).map f
  induction st.projects with
  | nil => rfl
  | cons p t ih =>
    rw [List.map_cons, find?_id_cons, find?_id_cons]
    by_cases hp : (p.id == pid) = true
    · have h1 : ((if (p.id == pid) = true then f p else p).id == pid) = true := by
        rw [if_pos hp, hf p]; exact hp
      rw [if_pos h1, if_pos hp, if_pos hp]
      rfl
    · have h1 : ¬ ((if (p.id == pid) = true then f p else p).id == pid) = true := by
        rw [if_neg hp]; exact hp
      rw [if_neg h1, if_neg hp]
      exact ih

theorem findProject_sessions_irrelevant (st : ServerState) (pid : Str)
    (s : List (Str × SessionRec)) :
    findProject { st with sessions := s } pid = findProject st pid := rfl

theorem markStaleTimes_spec (st : ServerState) (pid : Str) (p : ProjServer)
    (hp : findProject st pid = some p) :
    ∀ n, 1 ≤ n →
      findProject (markStaleTimes st pid n) pid = some { p with cacheStale := true }
      ∧ (markStaleTimes st pid n).cacheCreates = st.cacheCreates
      ∧ (markStaleTimes st pid n).sessions = st.sessions
      ∧ (markStaleTimes st pid n).sends = st.sends := by
  intro n
  induction n with
  | zero => intro h; exact absurd h (by simp)
  | succ m ih =>
    intro _
    by_cases hm : 1 ≤ m
    · obtain ⟨h1, h2, h3, h4⟩ := ih hm
      refine ⟨?_, h2, h3, h4⟩
      show findProject (markStale (markStaleTimes st pid m) pid) pid = _
      rw [markStale, findProject_update (markStaleTimes st pid m) pid
        (fun q => { q with cacheStale := true }) (fun q => rfl), h1]
      rfl
    · have hm0 : m = 0 := by omega
      subst hm0
      refine ⟨?_, rfl, rfl, rfl⟩
      show findProject (markStale st pid) pid = _
      rw [markStale, findProject_update st pid
        (fun q => { q with cacheStale := true }) (fun q => rfl), hp]
      rfl

/-- C6: cache regeneration is lazy and idempotent with respect to staleness
marking: marking a project stale any number of times n of at least one
between two session lookups leads to exactly one provider cache-create at
the next refreshCacheIfStale (which clears the flag and installs the fresh
handle), and refreshCacheIfStale performs no provider call and leaves the
state unchanged when the flag is clear. -/
theorem lazy_regeneration_idempotent (st : ServerState) (pid : Str) (n : Nat)
    (p : ProjServer) (hp : findProject st pid = some p) (hn : 1 ≤ n) :
    (refreshCacheIfStale (markStaleTimes st pid n) pid).2 = true
    ∧ (refreshCacheIfStale (markStaleTimes st pid n) pid).1.cacheCreates
        = st.cacheCreates + 1
    ∧ findProject (refreshCacheIfStale (markStaleTimes st pid n) pid).1 pid
        = some { p with cachedContent := some (st.cacheCreates + 1), cacheStale := false }
    ∧ refreshCacheIfStale (refreshCacheIfStale (markStaleTimes st pid n) pid).1 pid
        = ((refreshCacheIfStale (markStaleTimes st pid n) pid).1, false)
    ∧ (∀ st2 p2, findProject st2 pid = some p2 → p2.cacheStale = false →
        refreshCacheIfStale st2 pid = (st2, false)) := by
  obtain ⟨h1, h2, h3, h4⟩ := markStaleTimes_spec st pid p hp n hn
  have hclear : ∀ st2 p2, findProject st2 pid = some p2 → p2.cacheStale = false →
      refreshCacheIfStale st2 pid = (st2, false) := by
    intro st2 p2 hfind hstale
    simp only [refreshCacheIfStale, hfind, hstale]
    rfl
  have hres : refreshCacheIfStale (markStaleTimes st pid n) pid
      = (updateProject { markStaleTimes st pid n with
            cacheCreates := (markStaleTimes st pid n).cacheCreates + 1 } pid
          (fun q => { q with
            cachedContent := some ((markStaleTimes st pid n).cacheCreates + 1),
            cacheStale := false }), true) := by
    simp only [refreshCacheIfStale, h1, createCachedContent]
    rfl
  have hfind2 : findProject (refreshCacheIfStale (markStaleTimes st pid n) pid).1 pid
      = some { p with cachedContent := some (st.cacheCreates + 1), cacheStale := false } := by
    rw [hres]
    show findProject (updateProject { markStaleTimes st pid n with
        cacheCreates := (markStaleTimes st pid n).cacheCreates + 1 } pid
      (fun q => { q with
        cachedContent := some ((markStaleTimes st pid n).cacheCreates + 1),
        cacheStale := false })) pid = _
    rw [findProject_update { markStaleTimes st pid n with
        cacheCreates := (markStaleTimes st pid n).cacheCreates + 1 } pid
      (fun q => { q with
        cachedContent := some ((markStaleTimes st pid n).cacheCreates + 1),
        cacheStale := false }) (fun q => rfl)]
    have hsame : findProject { markStaleTimes st pid n with
        cacheCreates := (markStaleTimes st pid n).cacheCreates + 1 } pid
        = some { p with cacheStale := true } := h1
    rw [hsame, h2]
    rfl
  refine ⟨by rw [hres], ?_, hfind2, ?_, hclear⟩
  · rw [hres]
    show (updateProject { markStaleTimes st pid n with
        cacheCreates := (markStaleTimes st pid n).cacheCreates + 1 } pid
      (fun q => { q with
        cachedContent := some ((markStaleTimes st pid n).cacheCreates + 1),
        cacheStale := false })).cacheCreates = st.cacheCreates + 1
    simpa [updateProject] using h2
  · exact hclear _ _ hfind2 rfl

/-- Witness for C6 at a concrete state marked stale three times. -/
theorem lazy_regeneration_idempotent_witness :
    (refreshCacheIfStale (markStaleTimes exStateStale "p1".data 3) "p1".data).2 = true
    ∧ (refreshCacheIfStale (markStaleTimes exStateStale "p1".data 3) "p1".data).1.cacheCreates
        = 2 := by
  have h := lazy_regeneration_idempotent exStateStale "p1".data 3
    { id := "p1".data, cachedContent := some 1, cacheStale := true }
    (by decide) (by decide)
  exact ⟨h.1, h.2.1⟩

/-- C1, counterexample: in a state whose project p1 is stale (current handle
1) with one live session bound to handle 1, the staleness-triggered
regeneration performed by refreshCacheIfStale during session lookup installs
the fresh handle 2 but leaves the session registry untouched, so a session
whose composite key has project component p1 remains bound to the superseded
handle. -/
theorem session_survives_stale_regeneration :
    (refreshCacheIfStale exStateStale "p1".data).2 = true
    ∧ ((findProject (refreshCacheIfStale exStateStale "p1".data).1 "p1".data).map
        (fun p => p.cachedContent)) = some (some 2)
    ∧ (refreshCacheIfStale exStateStale "p1".data).1.sessions = exStateStale.sessions
    ∧ ∃ kv ∈ (refreshCacheIfStale exStateStale "p1".data).1.sessions,
        sessionKeyHasProject "p1".data kv.1 = true ∧ kv.2.boundCache ≠ 2 := by
  refine ⟨by decide, by decide, by decide, ?_⟩
  refine ⟨(compositeKey "s1".data "p1".data "enhance".data,
    { projectId := "p1".data, mode := "enhance".data, boundCache := 1 }), ?_, ?_, ?_⟩
  · decide
  · decide
  · decide

/-- C1, amended: only the expiry-triggered regeneration invalidates the
session registry: after handleCacheExpiration for project P no session whose
key has project component P remains, while the staleness-triggered
regeneration of refreshCacheIfStale leaves the session registry unchanged
(sessions bound to the superseded handle persist until expiry is
detected). -/
theorem session_invalidation_on_expiry (st st' : ServerState) (pid : Str)
    (h : handleCacheExpiration st pid = some st') :
    (∀ kv ∈ st'.sessions, sessionKeyHasProject pid kv.1 = false)
    ∧ (refreshCacheIfStale st pid).1.sessions = st.sessions := by
  constructor
  · intro kv hkv
    rw [handleCacheExpiration] at h
    cases hfind : findProject st pid with
    | none => rw [hfind] at h; simp at h
    | some p =>
      rw [hfind] at h
      simp only [Option.some_inj] at h
      rw [← h] at hkv
      have := List.of_mem_filter hkv
      simpa using this
  · rw [refreshCacheIfStale]
    cases hfind : findProject st pid with
    | none => rfl
    | some p =>
      by_cases hs : p.cacheStale = true
      · simp only [hs]
        rfl
      · simp only [Bool.not_eq_true] at hs
        simp only [hs]
        rfl

/-- Witness for C1's amended statement at a concrete expiring state. -/
theorem session_invalidation_on_expiry_witness :
    (∀ kv ∈ (handleCacheExpiration exStateStale "p1".data).getD exStateStale
        |>.sessions, sessionKeyHasProject "p1".data kv.1 = false)
    ∧ (refreshCacheIfStale exStateStale "p1".data).1.sessions = exStateStale.sessions := by
  have h := session_invalidation_on_expiry exStateStale
    ((handleCacheExpiration exStateStale "p1".data).getD exStateStale) "p1".data
    (by decide)
  exact h

/-! ## The synchronization loop is single flight (C4) -/

theorem watchStep_preserves_balance (s : WatchState)
    (h : s.ticksStarted = s.ticksFinished + (if s.isRunning then 1 else 0)) (e : WatchEvent) :
    (watchStep s e).ticksStarted
      = (watchStep s e).ticksFinished + (if (watchStep s e).isRunning then 1 else 0) := by
  cases e with
  | timerFire =>
    by_cases hr : s.isRunning
    · simp [watchStep, hr] at h ⊢
      omega
    · simp [watchStep, hr] at h ⊢
      omega
  | bodyFinish ops =>
    by_cases hr : s.isRunning
    · simp [watchStep, hr] at h ⊢
      omega
    · simp [watchStep, hr] at h ⊢
      omega

theorem watchRun_balance (evs : List WatchEvent) :
    ∀ (s : WatchState), s.ticksStarted = s.ticksFinished + (if s.isRunning then 1 else 0) →
      (watchRun s evs).ticksStarted
        = (watchRun s evs).ticksFinished + (if (watchRun s evs).isRunning then 1 else 0) := by
  induction evs with
  | nil => intro s h; exact h
  | cons e t ih =>
    intro s h
    exact ih (watchStep s e) (watchStep_preserves_balance s h e)

/-- C4: the synchronization loop is single flight.  In every state reachable
from the watcher's initial state the number of tick bodies in flight
(started minus finished) is at most one, and a timer firing that arrives
while a tick is still running only increments the skip counter: the
resulting state is otherwise identical, so the skipped tick performs no
repository operations, starts no body, and leaves nothing queued. -/
theorem watcher_single_flight (evs : List WatchEvent) (s : WatchState) :
    ticksInFlight (watchRun watchInit evs) ≤ 1
    ∧ (s.isRunning = true →
        watchStep s .timerFire = { s with skipped := s.skipped + 1 }) := by
  constructor
  · have h := watchRun_balance evs watchInit rfl
    rw [ticksInFlight, h]
    by_cases hr : (watchRun watchInit evs).isRunning
    · simp [hr]
    · simp [hr]
  · intro hr
    simp [watchStep, hr]

/-- Witness for C4: after one firing has entered a tick body, a second firing
while it runs is recorded as skipped and changes nothing else. -/
theorem watcher_single_flight_witness :
    ticksInFlight (watchRun watchInit
      [WatchEvent.timerFire, WatchEvent.timerFire, WatchEvent.bodyFinish 5]) ≤ 1
    ∧ watchStep (⟨true, 0, 1, 0, 0⟩ : WatchState) WatchEvent.timerFire
        = (⟨true, 1, 1, 0, 0⟩ : WatchState) := by
  have h := watcher_single_flight
    [WatchEvent.timerFire, WatchEvent.timerFire, WatchEvent.bodyFinish 5]
    (⟨true, 0, 1, 0, 0⟩ : WatchState)
  exact ⟨h.1, h.2 rfl⟩

/-! ## The chat-turn retry policy (C3) -/

theorem sessionKey_composite (sid pid mode : Str) :
    sessionKeyHasProject pid (compositeKey sid pid mode) = true := by
  rw [sessionKeyHasProject, strContains, decide_eq_true_eq]
  refine ⟨sid, mode, ?_⟩
  simp [compositeKey]

theorem find?_key_cons (kv : Str × SessionRec) (t : List (Str × SessionRec)) (key : Str) :
    List.find? (fun r => r.1 == key) (kv :: t)
      = if (kv.1 == key) = true then some kv
        else List.find? (fun r => r.1 == key) t := by
  by_cases h : (kv.1 == key) = true
  · rw [if_pos h]; exact List.find?_cons_of_pos _ h
  · rw [if_neg h]; exact List.find?_cons_of_neg _ h

theorem find?_filter_hasProject (pid key : Str) (hkey : sessionKeyHasProject pid key = true)
    (l : List (Str × SessionRec)) :
    (l.filter (fun kv => !(sessionKeyHasProject pid kv.1))).find?
      (fun kv => kv.1 == key) = none := by
  induction l with
  | nil => rfl
  | cons kv t ih =>
    by_cases hk : sessionKeyHasProject pid kv.1 = true
    · rw [List.filter_cons_of_neg (by simp [hk])]
      exact ih
    · rw [List.filter_cons_of_pos (by simp [hk])]
      have hne : ¬ ((kv.1 == key) = true) := by
        simp only [beq_iff_eq]
        intro hcontra
        rw [hcontra] at hk
        exact hk hkey
      rw [find?_key_cons, if_neg hne]
      exact ih

/-- C3: the retry policy of a chat turn.  A successful first send makes one
provider send and no cache create.  A first send failing with the expiry
signature leads to exactly one cache rebuild, a fresh session for the same
composite key, and exactly one retried send whose outcome (success or
failure) is surfaced as-is, for a total of two sends and one cache create.
A non-expiry failure is re-thrown after the single send with no cache
create. -/
theorem chat_turn_retry_policy (st : ServerState) (sid pid mode : Str) (p : ProjServer)
    (hp : findProject st pid = some p) (o1 o2 : Except ProvError Str) :
    (∀ t, o1 = .ok t →
      sendMessageWithRetry st sid pid mode o1 o2
        = ({ st with sends := st.sends + 1 }, .ok t))
    ∧ (∀ e, o1 = .error e → isCacheExpiredError e = true →
        (sendMessageWithRetry st sid pid mode o1 o2).1.sends = st.sends + 2
        ∧ (sendMessageWithRetry st sid pid mode o1 o2).1.cacheCreates = st.cacheCreates + 1
        ∧ (sendMessageWithRetry st sid pid mode o1 o2).2
            = (match o2 with
               | .ok t => .ok t
               | .error e2 => .error (.provider e2)))
    ∧ (∀ e, o1 = .error e → isCacheExpiredError e = false →
        sendMessageWithRetry st sid pid mode o1 o2
          = ({ st with sends := st.sends + 1 }, .error (.provider e))) := by
  refine ⟨?_, ?_, ?_⟩
  · intro t ht
    subst ht
    rfl
  · intro e he hexp
    subst he
    have hp1 : findProject { st with sends := st.sends + 1 } pid = some p := hp
    set stm : ServerState := { st with sends := st.sends + 1, cacheCreates := st.cacheCreates + 1 } with hstm
    set f : ProjServer → ProjServer := fun q => { q with cachedContent := some (st.cacheCreates + 1), cacheStale := false } with hfdef
    set st2 : ServerState := { (updateProject stm pid f) with sessions := st.sessions.filter (fun kv => !(sessionKeyHasProject pid kv.1)) } with hst2
    have hH : handleCacheExpiration { st with sends := st.sends + 1 } pid = some st2 := by
      rw [hst2, hstm, hfdef]
      simp only [handleCacheExpiration, hp1, createCachedContent]
      rfl
    have hfind2 : findProject st2 pid = some (f p) := by
      rw [hst2]
      show findProject (updateProject stm pid f) pid = _
      rw [findProject_update stm pid f (fun q => rfl)]
      have hsame : findProject stm pid = some p := hp
      rw [hsame]
      rfl
    have hrf : refreshCacheIfStale st2 pid = (st2, false) := by
      simp only [refreshCacheIfStale, hfind2]
      rfl
    have hfsess : st2.sessions.find?
        (fun kv => kv.1 == compositeKey sid pid mode) = none := by
      rw [hst2]
      exact find?_filter_hasProject pid _ (sessionKey_composite sid pid mode) st.sessions
    have hG : getChatSession st2 sid pid mode
        = .ok ({ st2 with sessions := st2.sessions ++ [(compositeKey sid pid mode,
            { projectId := pid, mode := mode, boundCache := st.cacheCreates + 1 })] },
          { projectId := pid, mode := mode, boundCache := st.cacheCreates + 1 }) := by
      simp only [getChatSession, hfind2, hrf, hfsess]
    have heval : sendMessageWithRetry st sid pid mode (Except.error e) o2
        = ({ ({ st2 with sessions := st2.sessions ++ [(compositeKey sid pid mode,
              ({ projectId := pid, mode := mode, boundCache := st.cacheCreates + 1 }
                : SessionRec))] }) with
            sends := st2.sends + 1 },
           match o2 with
           | .ok t => .ok t
           | .error e2 => .error (.provider e2)) := by
      simp only [sendMessageWithRetry, sendOnce, hexp, if_true, hH, hG]
      cases o2 <;> rfl
    rw [heval]
    refine ⟨?_, ?_, rfl⟩
    · show st2.sends + 1 = st.sends + 2
      rw [hst2]
      rfl
    · show st2.cacheCreates = st.cacheCreates + 1
      rw [hst2]
      rfl
  · intro e he hexp
    subst he
    simp only [sendMessageWithRetry, sendOnce, hexp]
    simp

/-- Witness for C3 at a concrete state and a concrete 403 CachedContent
error: the recovered turn makes two sends and one cache create and returns
the retried response. -/
theorem chat_turn_retry_policy_witness :
    (sendMessageWithRetry exStateStale "s1".data "p1".data "enhance".data
      (Except.error exExpiredError) (Except.ok "answer".data)).1.sends = 2
    ∧ (sendMessageWithRetry exStateStale "s1".data "p1".data "enhance".data
        (Except.error exExpiredError) (Except.ok "answer".data)).1.cacheCreates = 2
    ∧ (sendMessageWithRetry exStateStale "s1".data "p1".data "enhance".data
        (Except.error exExpiredError) (Except.ok "answer".data)).2
        = Except.ok "answer".data := by
  have h := (chat_turn_retry_policy exStateStale "s1".data "p1".data "enhance".data
    { id := "p1".data, cachedContent := some 1, cacheStale := true } (by decide)
    (Except.error exExpiredError) (Except.ok "answer".data)).2.1
    exExpiredError rfl (by decide)
  exact ⟨h.1, h.2.1, h.2.2⟩

/-! ## The project registry: persist before clone (C7) and token-blind
identity (C2) -/

/-- C7: addProject persists the new configuration entry before attempting
the clone (the save event precedes the clone-attempt event), and a clone
failure does not raise: the call still returns a Project whose status is
error with the failure message recorded, while the configuration still holds
the new entry; a successful clone yields status ready. -/
theorem add_project_persists_before_clone (hash : Str → Str) (cfg : List ProjectConfig)
    (gitUrl checkoutDir branch : Str) (accessToken : Option Str)
    (cloneOutcome : Except Str Unit)
    (hdup : configHasProjectId hash cfg
      (generateProjectId hash (cleanGitUrl gitUrl) branch) = false) :
    ∃ cfg2 proj evs,
      addProject hash cfg gitUrl checkoutDir branch accessToken cloneOutcome
        = .ok (cfg2, proj, evs)
      ∧ evs = [.savedConfig, .cloneAttempted]
      ∧ ({ gitUrl := cleanGitUrl gitUrl, branch := some branch,
           accessToken := accessToken } : ProjectConfig) ∈ cfg2
      ∧ (∀ u, cloneOutcome = .ok u →
          proj.status = .ready ∧ proj.errorMessage = none)
      ∧ (∀ msg, cloneOutcome = .error msg →
          proj.status = .error ∧ proj.errorMessage = some msg) := by
  rw [addProject]
  rw [if_neg (by rw [hdup]; simp)]
  cases cloneOutcome with
  | ok u =>
    refine ⟨_, _, _, rfl, rfl, by simp, fun v hv => ⟨rfl, rfl⟩, fun msg hmsg => ?_⟩
    simp at hmsg
  | error msg =>
    refine ⟨_, _, _, rfl, rfl, by simp, fun v hv => ?_, fun msg2 hmsg => ?_⟩
    · simp at hv
    · simp at hmsg
      subst hmsg
      exact ⟨rfl, rfl⟩

/-- Witness for C7 on an empty registry with a failing clone. -/
theorem add_project_persists_before_clone_witness :
    ∃ cfg2 proj evs,
      addProject (fun s => s) [] "https://github.com/u/r.git".data "/checkouts".data
        "main".data none (.error "network unreachable".data) = .ok (cfg2, proj, evs)
      ∧ evs = [.savedConfig, .cloneAttempted]
      ∧ ({ gitUrl := cleanGitUrl "https://github.com/u/r.git".data, branch := some "main".data,
           accessToken := none } : ProjectConfig) ∈ cfg2
      ∧ proj.status = .error := by
  obtain ⟨cfg2, proj, evs, h1, h2, h3, _, h5⟩ :=
    add_project_persists_before_clone (fun s => s) [] "https://github.com/u/r.git".data
      "/checkouts".data "main".data none (.error "network unreachable".data) (by decide)
  exact ⟨cfg2, proj, evs, h1, h2, h3, (h5 "network unreachable".data rfl).1⟩

/-- C2 (code behaviour at the failing input): the access token passed at the
server.ts call sites never reaches generateProjectId, so two configurations
agreeing on URL and branch but differing in token (here tokenA stored versus
tokenB incoming, and token-present versus token-absent) derive the same
identifier, and the add is rejected as a duplicate instead of being treated
as a distinct project. -/
theorem token_ignored_in_identity (hash : Str → Str) :
    generateProjectIdWithTokenArg hash "https://github.com/u/r.git".data "main".data
        (some "tokenA".data)
      = generateProjectIdWithTokenArg hash "https://github.com/u/r.git".data "main".data none
    ∧ ∃ msg, addProject hash
        [{ gitUrl := cleanGitUrl "https://github.com/u/r.git".data, branch := some "main".data,
           accessToken := some "tokenA".data }]
        "https://github.com/u/r.git".data "/checkouts".data "main".data
        (some "tokenB".data) (.ok ()) = .error msg := by
  refine ⟨rfl, ?_⟩
  rw [addProject]
  rw [if_pos ?hc]
  case hc =>
    rw [configHasProjectId]
    simp only [List.any_cons, List.any_nil, Bool.or_false, beq_iff_eq]
    have hclean : cleanGitUrl (cleanGitUrl "https://github.com/u/r.git".data)
        = cleanGitUrl "https://github.com/u/r.git".data := by decide
    rw [Option.getD]
    rw [hclean]
  exact ⟨_, rfl⟩

/-! ## Output cap enforcement in the process supervisor (C8) -/

theorem runChunkStep_preserves_inv (maxB : Nat) (s : RunState) (c : ChunkEv)
    (h : runInv maxB s) : runInv maxB (runChunkStep maxB s c) := by
  obtain ⟨h1, h2, h3, h4⟩ := h
  by_cases hov : s.overflowed.isSome
  · rw [runChunkStep, if_pos hov]
    exact ⟨h1, h2, h3, h4⟩
  · rw [runChunkStep, if_neg hov]
    have hnone : s.overflowed = none := Option.not_isSome_iff_eq_none.mp hov
    obtain ⟨hb1, hb2⟩ := h4 hnone
    cases c with
    | mk tag data =>
      cases tag with
      | stdout =>
        by_cases hlt : maxB < s.outBytes + data.length
        · simp only [if_pos hlt]
          exact ⟨h1, h2, fun _ => rfl, fun hcontra => by simp at hcontra⟩
        · simp only [if_neg hlt]
          refine ⟨?_, h2, h3, fun _ => ⟨?_, hb2⟩⟩
          · simp only [List.length_append]
            omega
          · simp only [List.length_append]
            omega
      | stderr =>
        by_cases hlt : maxB < s.errBytes + data.length
        · simp only [if_pos hlt]
          exact ⟨h1, h2, fun _ => rfl, fun hcontra => by simp at hcontra⟩
        · simp only [if_neg hlt]
          refine ⟨h1, ?_, h3, fun _ => ⟨hb1, ?_⟩⟩
          · simp only [List.length_append]
            omega
          · simp only [List.length_append]
            omega

theorem foldl_runChunkStep_inv (maxB : Nat) (chunks : List ChunkEv) :
    runInv maxB (chunks.foldl (runChunkStep maxB) runInit) := by
  have h0 : runInv maxB runInit := by
    refine ⟨by simp [runInit], by simp [runInit], ?_, ?_⟩
    · intro h; simp [runInit] at h
    · intro _; exact ⟨rfl, rfl⟩
  clear h0
  have : ∀ (s : RunState), runInv maxB s →
      runInv maxB (chunks.foldl (runChunkStep maxB) s) := by
    induction chunks with
    | nil => intro s hs; exact hs
    | cons c t ih =>
      intro s hs
      exact ih (runChunkStep maxB s c) (runChunkStep_preserves_inv maxB s c hs)
  refine this runInit ?_
  refine ⟨by simp [runInit], by simp [runInit], ?_, ?_⟩
  · intro h; simp [runInit] at h
  · intro _; exact ⟨rfl, rfl⟩

/-- C8: while output is captured, a stream whose accumulated output exceeds
the effective cap (the caller's maxBufferBytes or the 10 MB default) makes
the call reject with the output-overflow outcome naming that stream, with the
child process killed; the captured buffers never grow past the cap (the
overflowing chunk and everything after it are not accumulated), and the
default cap is 10 MB. -/
theorem output_cap_enforced (maxBufferBytes : Option Nat) (chunks : List ChunkEv)
    (exitCode : Int) (tag : StreamTag)
    (hov : firstOverflow (effectiveMaxBuffer maxBufferBytes) chunks = some tag) :
    (runGitCommandModel maxBufferBytes chunks exitCode).2 = .overflowError tag
    ∧ (runGitCommandModel maxBufferBytes chunks exitCode).1.killed = true
    ∧ (runGitCommandModel maxBufferBytes chunks exitCode).1.outBuf.length
        ≤ effectiveMaxBuffer maxBufferBytes
    ∧ (runGitCommandModel maxBufferBytes chunks exitCode).1.errBuf.length
        ≤ effectiveMaxBuffer maxBufferBytes
    ∧ effectiveMaxBuffer none = 10 * 1024 * 1024 := by
  have hinv := foldl_runChunkStep_inv (effectiveMaxBuffer maxBufferBytes) chunks
  rw [firstOverflow] at hov
  have hmodel : runGitCommandModel maxBufferBytes chunks exitCode
      = (chunks.foldl (runChunkStep (effectiveMaxBuffer maxBufferBytes)) runInit,
         .overflowError tag) := by
    rw [runGitCommandModel, hov]
  rw [hmodel]
  obtain ⟨h1, h2, h3, _⟩ := hinv
  exact ⟨rfl, h3 (by rw [hov]; rfl), h1, h2, rfl⟩

/-- Witness for C8: a six-character chunk against a cap of five bytes
overflows stdout. -/
theorem output_cap_enforced_witness :
    (runGitCommandModel (some 5) [⟨StreamTag.stdout, "123456".data⟩] 0).2
      = RunOutcome.overflowError StreamTag.stdout
    ∧ (runGitCommandModel (some 5) [⟨StreamTag.stdout, "123456".data⟩] 0).1.killed = true := by
  have h := output_cap_enforced (some 5) [⟨StreamTag.stdout, "123456".data⟩] 0
    StreamTag.stdout (by decide)
  exact ⟨h.1, h.2.1⟩

/-! ## URL parsing, cleaning and normalization lemmas (towards C5 and C9) -/

theorem splitLastAt_none (c : Char) (l : Str) (h : ∀ x ∈ l, (x != c) = true) :
    splitLastAt c l = none := by
  rw [splitLastAt]
  rw [dropWhile_eq_nil_of_all _ _ (fun x hx => h x (List.mem_reverse.mp hx))]

theorem splitLastAt_found (c : Char) (a b : Str) (hb : ∀ x ∈ b, (x != c) = true) :
    splitLastAt c (a ++ c :: b) = some (a, b) := by
  rw [splitLastAt]
  have hrev : (a ++ c :: b).reverse = b.reverse ++ c :: a.reverse := by
    simp [List.reverse_append]
  rw [hrev]
  have h1 := takeWhile_append_middle (fun x => x != c) b.reverse c a.reverse
    (fun x hx => hb x (List.mem_reverse.mp hx)) (by simp)
  rw [h1.1, h1.2]
  simp

theorem parseUrl_https_shape (X : Str) :
    parseUrl? ("https://".data ++ X)
      = (match splitLastAt '@' (X.takeWhile (fun c => c != '/')) with
         | some (ui, h) =>
           if h = [] then none
           else
             some ⟨"https".data, ui.takeWhile (fun c => c != ':'),
               (match ui.dropWhile (fun c => c != ':') with
                | _ :: t => some t
                | [] => none), strLower h, X.dropWhile (fun c => c != '/')⟩
         | none =>
           if X.takeWhile (fun c => c != '/') = [] then none
           else some ⟨"https".data, [], none, strLower (X.takeWhile (fun c => c != '/')),
             X.dropWhile (fun c => c != '/')⟩) := rfl

theorem parseUrl_https_plain (host path : Str) (hne : host ≠ [])
    (hs : ∀ c ∈ host, (c != '/') = true) (hat : ∀ c ∈ host, (c != '@') = true) :
    parseUrl? ("https://".data ++ host ++ '/' :: path)
      = some ⟨"https".data, [], none, strLower host, '/' :: path⟩ := by
  have hgroup : "https://".data ++ host ++ '/' :: path
      = "https://".data ++ (host ++ '/' :: path) := by simp
  rw [hgroup, parseUrl_https_shape]
  have h3 := takeWhile_append_middle (fun c => c != '/') host '/' path hs rfl
  rw [h3.1, h3.2]
  rw [splitLastAt_none '@' host hat]
  simp [hne]

theorem parseUrl_https_creds (tok host path : Str) (hne : host ≠ [])
    (hs : ∀ c ∈ host, (c != '/') = true) (hat : ∀ c ∈ host, (c != '@') = true)
    (ts : ∀ c ∈ tok, (c != '/') = true) (tc : ∀ c ∈ tok, (c != ':') = true) :
    parseUrl? ("https://".data ++ tok ++ '@' :: host ++ '/' :: path)
      = some ⟨"https".data, tok, none, strLower host, '/' :: path⟩ := by
  have hgroup : "https://".data ++ tok ++ '@' :: host ++ '/' :: path
      = "https://".data ++ ((tok ++ '@' :: host) ++ '/' :: path) := by simp
  rw [hgroup, parseUrl_https_shape]
  have hall : ∀ c ∈ tok ++ '@' :: host, (c != '/') = true := by
    intro c hc
    rcases List.mem_append.mp hc with h | h
    · exact ts c h
    · rcases List.mem_cons.mp h with rfl | h2
      · rfl
      · exact hs c h2
  have h3 := takeWhile_append_middle (fun c => c != '/') (tok ++ '@' :: host) '/' path hall rfl
  rw [h3.1, h3.2]
  rw [splitLastAt_found '@' tok host hat]
  simp [hne, takeWhile_eq_self_of_all _ tok tc, dropWhile_eq_nil_of_all _ tok tc]

theorem cleanGitUrl_https_plain (host path : Str) (hne : host ≠ [])
    (hs : ∀ c ∈ host, (c != '/') = true) (hat : ∀ c ∈ host, (c != '@') = true) :
    cleanGitUrl ("https://".data ++ host ++ '/' :: path)
      = "https://".data ++ strLower host ++ '/' :: path := by
  have h4 : ("https://".data ++ host ++ '/' :: path).take 4 = "http".data := rfl
  rw [cleanGitUrl, if_neg (by rw [h4]; decide)]
  rw [parseUrl_https_plain host path hne hs hat]
  show buildUrl ⟨"https".data, [], none, strLower host, '/' :: path⟩
    = "https://".data ++ strLower host ++ '/' :: path
  rw [buildUrl]
  simp

theorem cleanGitUrl_https_creds (tok host path : Str) (hne : host ≠ [])
    (hs : ∀ c ∈ host, (c != '/') = true) (hat : ∀ c ∈ host, (c != '@') = true)
    (ts : ∀ c ∈ tok, (c != '/') = true) (tc : ∀ c ∈ tok, (c != ':') = true) :
    cleanGitUrl ("https://".data ++ tok ++ '@' :: host ++ '/' :: path)
      = "https://".data ++ strLower host ++ '/' :: path := by
  have h4 : ("https://".data ++ tok ++ '@' :: host ++ '/' :: path).take 4 = "http".data := rfl
  rw [cleanGitUrl, if_neg (by rw [h4]; decide)]
  rw [parseUrl_https_creds tok host path hne hs hat ts tc]
  show buildUrl ⟨"https".data, [], none, strLower host, '/' :: path⟩
    = "https://".data ++ strLower host ++ '/' :: path
  rw [buildUrl]
  simp

theorem endsWithDotGit_eq_true_iff (s : Str) :
    endsWithDotGit s = true ↔ ".git".data <:+ s := by
  rw [endsWithDotGit]
  exact List.isSuffixOf_iff_suffix

theorem stripDotGit_append (a : Str) : stripDotGit (a ++ ".git".data) = a := by
  rw [stripDotGit, if_pos]
  · have : (a ++ ".git".data).length - 4 = a.length := by simp
    rw [this]
    exact List.take_left a _
  · rw [endsWithDotGit_eq_true_iff]
    exact List.suffix_append a _

theorem stripDotGit_of_not (s : Str) (h : ¬ ".git".data <:+ s) : stripDotGit s = s := by
  rw [stripDotGit, if_neg]
  rw [endsWithDotGit_eq_true_iff]
  exact h

theorem sshRewrite_git (host tail : Str) (hne : host ≠ [])
    (hc : ∀ c ∈ host, (c != ':') = true) :
    sshRewrite ("git@".data ++ host ++ ':' :: tail)
      = "https://".data ++ host ++ '/' :: tail := by
  have hgroup : "git@".data ++ host ++ ':' :: tail
      = "git@".data ++ (host ++ ':' :: tail) := by simp
  rw [hgroup]
  have h4 : ("git@".data ++ (host ++ ':' :: tail)).take 4 = "git@".data := rfl
  have hdrop : ("git@".data ++ (host ++ ':' :: tail)).drop 4 = host ++ ':' :: tail := rfl
  rw [sshRewrite, if_pos h4]
  have h3 := takeWhile_append_middle (fun c => c != ':') host ':' tail hc rfl
  rw [hdrop]
  simp only [h3.1, h3.2]
  obtain ⟨c0, host', rfl⟩ : ∃ c0 host', host = c0 :: host' := by
    cases host with
    | nil => exact absurd rfl hne
    | cons c0 host' => exact ⟨c0, host', rfl⟩
  simp

theorem sshRewrite_not (s : Str) (h : ¬ s.take 4 = "git@".data) : sshRewrite s = s := by
  rw [sshRewrite, if_neg h]

theorem stripHttpScheme_https (X : Str) :
    stripHttpScheme ("https://".data ++ X) = X := rfl

theorem normalize_post_dotgit (H path : Str) :
    strLower (stripHttpScheme (sshRewrite ("https://".data ++ H ++ '/' :: path)))
      = strLower (H ++ '/' :: path) := by
  have h4 : ("https://".data ++ H ++ '/' :: path).take 4 = "http".data := rfl
  rw [sshRewrite_not _ (by rw [h4]; decide)]
  have hgroup : "https://".data ++ H ++ '/' :: path
      = "https://".data ++ (H ++ '/' :: path) := by simp
  rw [hgroup, stripHttpScheme_https]

theorem not_dotgit_slash (H path : Str) (hgit : ¬ (".git".data <:+ path)) (c : Char)
    (hc : c ≠ '.' ∧ c ≠ 'g' ∧ c ≠ 'i' ∧ c ≠ 't') :
    ¬ (".git".data <:+ (H ++ c :: path)) := by
  intro hcon
  have hsfx : (c :: path) <:+ (H ++ c :: path) := List.suffix_append H (c :: path)
  rcases List.suffix_or_suffix_of_suffix hcon hsfx with h | h
  · obtain ⟨t, ht⟩ := h
    cases t with
    | nil =>
      have hhead : '.' = c := by
        have := congrArg List.head? ht
        simpa using this
      exact hc.1 hhead.symm
    | cons a t' =>
      have htail : t' ++ ".git".data = path := by
        have := congrArg List.tail ht
        simpa using this
      exact hgit ⟨t', htail⟩
  · obtain ⟨t, ht⟩ := h
    have hmem : c ∈ ".git".data := by
      rw [← ht]
      simp
    rcases (by simpa using hmem : c = '.' ∨ c = 'g' ∨ c = 'i' ∨ c = 't') with
      h1 | h1 | h1 | h1
    · exact hc.1 h1
    · exact hc.2.1 h1
    · exact hc.2.2.1 h1
    · exact hc.2.2.2 h1

theorem normalize_post_clean (H path : Str)
    (hgit : ¬ (".git".data <:+ path)) :
    strLower (stripHttpScheme (sshRewrite (stripDotGit ("https://".data ++ H ++ '/' :: path))))
      = strLower (H ++ '/' :: path) := by
  rw [stripDotGit_of_not _
    (not_dotgit_slash ("https://".data ++ H) path hgit '/' (by decide))]
  exact normalize_post_dotgit H path

theorem normalize_https_plain (host path : Str) (hne : host ≠ [])
    (hs : ∀ c ∈ host, (c != '/') = true) (hat : ∀ c ∈ host, (c != '@') = true)
    (hlow : strLower host = host)
    (hgit : ¬ (".git".data <:+ path)) :
    normalizeGitUrl ("https://".data ++ host ++ '/' :: path)
      = strLower (host ++ '/' :: path) := by
  rw [normalizeGitUrl, cleanGitUrl_https_plain host path hne hs hat, hlow]
  exact normalize_post_clean host path hgit

theorem normalize_https_dotgit (host path : Str) (hne : host ≠ [])
    (hs : ∀ c ∈ host, (c != '/') = true) (hat : ∀ c ∈ host, (c != '@') = true)
    (hlow : strLower host = host) :
    normalizeGitUrl ("https://".data ++ host ++ '/' :: (path ++ ".git".data))
      = strLower (host ++ '/' :: path) := by
  rw [normalizeGitUrl, cleanGitUrl_https_plain host (path ++ ".git".data) hne hs hat, hlow]
  have hgroup : "https://".data ++ host ++ '/' :: (path ++ ".git".data)
      = ("https://".data ++ host ++ '/' :: path) ++ ".git".data := by simp
  rw [hgroup, stripDotGit_append]
  exact normalize_post_dotgit host path

theorem normalize_ssh (host path : Str) (hne : host ≠ [])
    (hcol : ∀ c ∈ host, (c != ':') = true)
    (hgit : ¬ (".git".data <:+ path)) :
    normalizeGitUrl ("git@".data ++ host ++ ':' :: path)
      = strLower (host ++ '/' :: path) := by
  rw [normalizeGitUrl]
  have hclean : cleanGitUrl ("git@".data ++ host ++ ':' :: path)
      = "git@".data ++ host ++ ':' :: path := by
    have hg : ("git@".data ++ host ++ ':' :: path).take 4 = "git@".data := rfl
    rw [cleanGitUrl, if_pos hg]
  rw [hclean, stripDotGit_of_not _
    (not_dotgit_slash ("git@".data ++ host) path hgit ':' (by decide))]
  rw [sshRewrite_git host path hne hcol]
  have hgroup : "https://".data ++ host ++ '/' :: path
      = "https://".data ++ (host ++ '/' :: path) := by simp
  rw [hgroup, stripHttpScheme_https]

theorem normalize_ssh_dotgit (host path : Str) (hne : host ≠ [])
    (hcol : ∀ c ∈ host, (c != ':') = true) :
    normalizeGitUrl ("git@".data ++ host ++ ':' :: (path ++ ".git".data))
      = strLower (host ++ '/' :: path) := by
  rw [normalizeGitUrl]
  have hclean : cleanGitUrl ("git@".data ++ host ++ ':' :: (path ++ ".git".data))
      = "git@".data ++ host ++ ':' :: (path ++ ".git".data) := by
    have hg : ("git@".data ++ host ++ ':' :: (path ++ ".git".data)).take 4 = "git@".data := rfl
    rw [cleanGitUrl, if_pos hg]
  rw [hclean]
  have hgroup : "git@".data ++ host ++ ':' :: (path ++ ".git".data)
      = ("git@".data ++ host ++ ':' :: path) ++ ".git".data := by simp
  rw [hgroup, stripDotGit_append]
  rw [sshRewrite_git host path hne hcol]
  have hgroup2 : "https://".data ++ host ++ '/' :: path
      = "https://".data ++ (host ++ '/' :: path) := by simp
  rw [hgroup2, stripHttpScheme_https]

theorem normalize_https_creds (tok host path : Str) (hne : host ≠ [])
    (hs : ∀ c ∈ host, (c != '/') = true) (hat : ∀ c ∈ host, (c != '@') = true)
    (hlow : strLower host = host)
    (ts : ∀ c ∈ tok, (c != '/') = true) (tc : ∀ c ∈ tok, (c != ':') = true)
    (hgit : ¬ (".git".data <:+ path)) :
    normalizeGitUrl ("https://".data ++ tok ++ '@' :: host ++ '/' :: path)
      = strLower (host ++ '/' :: path) := by
  rw [normalizeGitUrl, cleanGitUrl_https_creds tok host path hne hs hat ts tc, hlow]
  exact normalize_post_clean host path hgit

theorem normalize_https_hostcase (hostV host path : Str) (hne : hostV ≠ [])
    (hs : ∀ c ∈ hostV, (c != '/') = true) (hat : ∀ c ∈ hostV, (c != '@') = true)
    (hlow : strLower hostV = host)
    (hgit : ¬ (".git".data <:+ path)) :
    normalizeGitUrl ("https://".data ++ hostV ++ '/' :: path)
      = strLower (host ++ '/' :: path) := by
  rw [normalizeGitUrl, cleanGitUrl_https_plain hostV path hne hs hat, hlow]
  exact normalize_post_clean host path hgit

/-- C5: the derived project identifier is invariant under a trailing .git
suffix, SSH versus HTTPS transport for the same host and path, embedded
credentials, and letter case of the host: for every well-formed host (and
any upper-case variant of it), path, token and branch, the identifiers of
all these URL variants coincide with the identifier of the canonical
https://host/path form. -/
theorem project_identity_invariance (hash : Str → Str) (host hostV path tok branch : Str)
    (hne : host ≠ []) (hs : ∀ c ∈ host, (c != '/') = true)
    (hat : ∀ c ∈ host, (c != '@') = true) (hcol : ∀ c ∈ host, (c != ':') = true)
    (hlow : strLower host = host)
    (hneV : hostV ≠ []) (hsV : ∀ c ∈ hostV, (c != '/') = true)
    (hatV : ∀ c ∈ hostV, (c != '@') = true) (hlowV : strLower hostV = host)
    (ts : ∀ c ∈ tok, (c != '/') = true) (tc : ∀ c ∈ tok, (c != ':') = true)
    (hgit : ¬ (".git".data <:+ path)) :
    generateProjectId hash ("https://".data ++ host ++ '/' :: (path ++ ".git".data)) branch
        = generateProjectId hash ("https://".data ++ host ++ '/' :: path) branch
    ∧ generateProjectId hash ("git@".data ++ host ++ ':' :: path) branch
        = generateProjectId hash ("https://".data ++ host ++ '/' :: path) branch
    ∧ generateProjectId hash ("git@".data ++ host ++ ':' :: (path ++ ".git".data)) branch
        = generateProjectId hash ("https://".data ++ host ++ '/' :: path) branch
    ∧ generateProjectId hash ("https://".data ++ tok ++ '@' :: host ++ '/' :: path) branch
        = generateProjectId hash ("https://".data ++ host ++ '/' :: path) branch
    ∧ generateProjectId hash ("https://".data ++ hostV ++ '/' :: path) branch
        = generateProjectId hash ("https://".data ++ host ++ '/' :: path) branch := by
  have hB := normalize_https_plain host path hne hs hat hlow hgit
  have congrId : ∀ u1 u2 : Str, normalizeGitUrl u1 = normalizeGitUrl u2 →
      generateProjectId hash u1 branch = generateProjectId hash u2 branch := by
    intro u1 u2 h
    rw [generateProjectId, generateProjectId, projectIdComposite, projectIdComposite, h]
  refine ⟨congrId _ _ ?_, congrId _ _ ?_, congrId _ _ ?_, congrId _ _ ?_, congrId _ _ ?_⟩
  · rw [normalize_https_dotgit host path hne hs hat hlow, hB]
  · rw [normalize_ssh host path hne hcol hgit, hB]
  · rw [normalize_ssh_dotgit host path hne hcol, hB]
  · rw [normalize_https_creds tok host path hne hs hat hlow ts tc hgit, hB]
  · rw [normalize_https_hostcase hostV host path hneV hsV hatV hlowV hgit, hB]

/-- Witness for C5 at the claim's own concrete URLs: the documented collision
of https github.com u r .git with its SSH form git at github.com colon u r. -/
theorem project_identity_invariance_witness :
    generateProjectId (fun s => s) "https://github.com/u/r.git".data "main".data
      = generateProjectId (fun s => s) "git@github.com:u/r".data "main".data := by
  have h := project_identity_invariance (fun s => s) "github.com".data "GitHub.com".data
    "u/r".data "mytoken".data "main".data
    (by decide) (by decide) (by decide) (by decide) (by decide)
    (by decide) (by decide) (by decide) (by decide)
    (by decide) (by decide) (by decide)
  have e1 : "https://github.com/u/r.git".data
      = "https://".data ++ "github.com".data ++ '/' :: ("u/r".data ++ ".git".data) := by
    decide
  have e2 : "git@github.com:u/r".data
      = "git@".data ++ "github.com".data ++ ':' :: "u/r".data := by decide
  rw [e1, e2, h.1, h.2.1]

/-! ## Credential hygiene (C9) -/

theorem redactGitUrl_clean (host path : Str) (hne : host ≠ [])
    (hs : ∀ c ∈ host, (c != '/') = true) (hat : ∀ c ∈ host, (c != '@') = true)
    (hlow : strLower host = host) :
    redactGitUrl ("https://".data ++ host ++ '/' :: path)
      = "https://".data ++ host ++ '/' :: path := by
  rw [redactGitUrl, parseUrl_https_plain host path hne hs hat, hlow]
  show buildUrl ⟨"https".data, [], none, host, '/' :: path⟩
    = "https://".data ++ host ++ '/' :: path
  rw [buildUrl]
  simp

/-- C9: for add, edit and list, the persisted and displayed git URL is the
cleaned form with embedded credentials removed, and never contains the
access token: addProject stores the credential-free URL in both the
configuration entry and the returned Project (which the list endpoint
returns verbatim), the edit handler persists the same cleaned form, and
redactGitUrl leaves the credential-free form unchanged, so no user-facing
surface renders the token. -/
theorem credential_hygiene (hash : Str → Str) (cfg : List ProjectConfig)
    (host tok path branch checkoutDir : Str) (cloneOutcome : Except Str Unit)
    (hne : host ≠ []) (hs : ∀ c ∈ host, (c != '/') = true)
    (hat : ∀ c ∈ host, (c != '@') = true) (hlow : strLower host = host)
    (ts : ∀ c ∈ tok, (c != '/') = true) (tc : ∀ c ∈ tok, (c != ':') = true)
    (hnotin : ¬ (tok <:+: ("https://".data ++ host ++ '/' :: path)))
    (hdup : configHasProjectId hash cfg (generateProjectId hash
      (cleanGitUrl ("https://".data ++ tok ++ '@' :: host ++ '/' :: path)) branch) = false) :
    cleanGitUrl ("https://".data ++ tok ++ '@' :: host ++ '/' :: path)
      = "https://".data ++ host ++ '/' :: path
    ∧ (∃ cfg2 proj evs,
        addProject hash cfg ("https://".data ++ tok ++ '@' :: host ++ '/' :: path)
          checkoutDir branch (some tok) cloneOutcome = .ok (cfg2, proj, evs)
        ∧ proj.gitUrl = "https://".data ++ host ++ '/' :: path
        ∧ listProjectGitUrl proj = "https://".data ++ host ++ '/' :: path
        ∧ ({ gitUrl := "https://".data ++ host ++ '/' :: path, branch := some branch,
             accessToken := some tok } : ProjectConfig) ∈ cfg2
        ∧ ¬ (tok <:+: proj.gitUrl))
    ∧ (editUpdatedEntry ("https://".data ++ tok ++ '@' :: host ++ '/' :: path) branch
          (some tok)).gitUrl = "https://".data ++ host ++ '/' :: path
    ∧ redactGitUrl ("https://".data ++ host ++ '/' :: path)
        = "https://".data ++ host ++ '/' :: path := by
  have hclean : cleanGitUrl ("https://".data ++ tok ++ '@' :: host ++ '/' :: path)
      = "https://".data ++ host ++ '/' :: path := by
    rw [cleanGitUrl_https_creds tok host path hne hs hat ts tc, hlow]
  refine ⟨hclean, ?_, ?_, redactGitUrl_clean host path hne hs hat hlow⟩
  · rw [addProject, if_neg (by rw [hdup]; simp)]
    cases cloneOutcome with
    | ok u =>
      refine ⟨_, _, _, rfl, hclean, ?_, ?_, ?_⟩
      · rw [listProjectGitUrl, hclean]
      · rw [hclean]
        simp
      · show ¬ (tok <:+: cleanGitUrl ("https://".data ++ tok ++ '@' :: host ++ '/' :: path))
        rw [hclean]
        exact hnotin
    | error msg =>
      refine ⟨_, _, _, rfl, hclean, ?_, ?_, ?_⟩
      · rw [listProjectGitUrl, hclean]
      · rw [hclean]
        simp
      · show ¬ (tok <:+: cleanGitUrl ("https://".data ++ tok ++ '@' :: host ++ '/' :: path))
        rw [hclean]
        exact hnotin
  · rw [editUpdatedEntry]
    exact hclean

/-- Witness for C9 at a concrete token-bearing URL. -/
theorem credential_hygiene_witness :
    cleanGitUrl "https://mytoken@github.com/u/repo".data
      = "https://github.com/u/repo".data
    ∧ ¬ ("mytoken".data <:+: "https://github.com/u/repo".data)
    ∧ redactGitUrl "https://github.com/u/repo".data = "https://github.com/u/repo".data := by
  have h := credential_hygiene (fun s => s) [] "github.com".data "mytoken".data
    "u/repo".data "main".data "/checkouts".data (.ok ())
    (by decide) (by decide) (by decide) (by decide) (by decide) (by decide)
    (by decide) (by decide)
  have e1 : "https://mytoken@github.com/u/repo".data
      = "https://".data ++ "mytoken".data ++ '@' :: "github.com".data
          ++ '/' :: "u/repo".data := by decide
  have e2 : "https://github.com/u/repo".data
      = "https://".data ++ "github.com".data ++ '/' :: "u/repo".data := by decide
  refine ⟨?_, ?_, ?_⟩
  · rw [e1, e2]
    exact h.1
  · rw [e2]
    exact fun hcon => (by decide :
      ¬ ("mytoken".data <:+: ("https://".data ++ "github.com".data
        ++ '/' :: "u/repo".data))) hcon
  · rw [e2]
    exact h.2.2.2

end Promptly
